import Mathlib

/-!
A verification development for the `md2norg` Markdown-to-Neorg converter.

The program's core is the function `convert_markdown_to_neorg` (src/main.rs),
which applies three passes to a document string:

1. an inline-span rewrite pass: eight regex `replace_all` rules applied
   sequentially over the whole text (image links, links, wiki links,
   reference definitions, autolinks);
2. a line-classification pass: the text is split with Rust's `str::lines`,
   and each line is rewritten as a heading, unchecked task, checked task,
   generic list item, or kept verbatim, always receiving a trailing `'\n'`;
3. a fenced-code-block pass: a `replace_all` of
   a triple-backtick fence regex over the result of pass 2.

The development shallowly embeds the program over `List Char`.  Each regex is
translated into an explicit matcher with the regex crate's leftmost-first
semantics (greedy and lazy quantifier preferences are unfolded by hand into
`takeWhile`/`dropWhile`/backtracking searches).  `replace_all` is embedded as
a left-to-right scan with a structural fuel argument (fuel = input length
suffices, because every pattern of this program consumes at least one
character per match), so that every definition evaluates by kernel reduction.
-/

set_option maxHeartbeats 1000000

namespace Md2Norg

/-- The Unicode `White_Space` code points: exactly the character class matched
by `\s` in the Rust regex crate (Unicode mode, the crate's default) and the
class trimmed by Rust's `str::trim_end`. -/
def rsWhitespace (c : Char) : Bool :=
  c == ' ' || c == '\t' || c == '\n' || c == '\x0b' || c == '\x0c' || c == '\r' ||
  c == '\u0085' || c == '\u00A0' || c == '\u1680' ||
  (decide (0x2000 ≤ c.toNat) && decide (c.toNat ≤ 0x200A)) ||
  c == '\u2028' || c == '\u2029' || c == '\u202F' || c == '\u205F' || c == '\u3000'

/-- The character class `\w` of the Rust regex crate, used only for the
language tag of a code fence (```` ```(\w*)\n ````).  The crate's `\w` is
Unicode-aware; it is modelled here by its ASCII part (alphanumeric or
underscore), since the full Unicode word classes cannot be enumerated and no
claim involves a non-ASCII language tag. -/
def rsWordChar (c : Char) : Bool :=
  c.isAlphanum || c == '_'

/-- The backtick character (code point 96). -/
def tick : Char := Char.ofNat 96

def isTick (c : Char) : Bool := c == tick

/-- Drop a single trailing carriage return, as Rust's `str::lines` does to a
line that was terminated by `"\r\n"`. -/
def stripCR (l : List Char) : List Char :=
  if l.getLast? == some '\r' then l.dropLast else l

/-- Rust's `str::trim_end`: remove trailing `White_Space` characters. -/
def trimEnd (l : List Char) : List Char :=
  (l.reverse.dropWhile rsWhitespace).reverse

/-- Split at every `'\n'` (the separators are not kept; a trailing `'\n'`
yields a trailing empty piece, and the empty text yields one empty piece). -/
def splitNl : List Char → List (List Char)
  | [] => [[]]
  | c :: tl =>
    if c == '\n' then [] :: splitNl tl
    else
      match splitNl tl with
      | [] => [[c]]
      | h :: t => (c :: h) :: t

/-- Turn the pieces produced by `splitNl` into Rust lines: every piece except
the final one was followed by a `'\n'` and gets `stripCR`; the final piece is
dropped when empty (it then only witnessed a trailing `'\n'`), and otherwise
kept verbatim (a trailing `'\r'` not followed by `'\n'` is kept). -/
def linesOfPieces (ps : List (List Char)) : List (List Char) :=
  match ps.getLast? with
  | some last =>
    (ps.dropLast.map stripCR) ++ (if last.isEmpty then [] else [last])
  | none => []

/-- Rust's `str::lines`: split at `'\n'`, drop the optional final empty piece,
and strip one `'\r'` from the end of every piece that was followed by a
`'\n'` (a `'\r'` not followed by `'\n'` does not split and is kept). -/
def rustLines (s : List Char) : List (List Char) :=
  match s with
  | [] => []
  | _ :: _ => linesOfPieces (splitNl s)

/-- One step of `Regex::replace_all`: scan left to right; at each position try
the matcher (which reports the match length and the instantiated replacement
for a match anchored at that position); on a match, emit the replacement and
resume after the match, otherwise emit the character and move on.  The fuel
argument makes the recursion structural; `fuel = length of the text` always
suffices because every translated pattern consumes at least one character
(each contains a literal), so the `len == 0` guard is unreachable. -/
def replaceAllGo (m : List Char → Option (Nat × List Char)) :
    Nat → List Char → List Char
  | _, [] => []
  | 0, l => l
  | fuel + 1, c :: rest =>
    match m (c :: rest) with
    | none => c :: replaceAllGo m fuel rest
    | some (len, rep) =>
      if len == 0 then c :: replaceAllGo m fuel rest
      else rep ++ replaceAllGo m fuel (List.drop (len - 1) rest)

def replaceAll (m : List Char → Option (Nat × List Char)) (l : List Char) :
    List Char :=
  replaceAllGo m l.length l

/-- `Regex::replace_all` for a pattern anchored with `(?m)^`: the matcher is
tried only at the start of the text and right after every `'\n'`.  After a
match the at-line-start flag is recomputed from the last consumed character,
as the next search in Rust resumes right after the match. -/
def replaceAllAnchoredGo (m : List Char → Option (Nat × List Char)) :
    Nat → Bool → List Char → List Char
  | _, _, [] => []
  | 0, _, l => l
  | fuel + 1, atStart, c :: rest =>
    if atStart then
      match m (c :: rest) with
      | none => c :: replaceAllAnchoredGo m fuel (c == '\n') rest
      | some (len, rep) =>
        if len == 0 then c :: replaceAllAnchoredGo m fuel (c == '\n') rest
        else
          rep ++ replaceAllAnchoredGo m fuel
            (((c :: rest).take len).getLast? == some '\n')
            (List.drop (len - 1) rest)
    else c :: replaceAllAnchoredGo m fuel (c == '\n') rest

def replaceAllAnchored (m : List Char → Option (Nat × List Char))
    (l : List Char) : List Char :=
  replaceAllAnchoredGo m l.length true l

/-- The tail `\s+"([^"]+)"\)` of rule 1, matched at the head of `u`:
a nonempty whitespace run (greedy, and forced maximal, since a shorter run
would have to match `"` against a whitespace character), a quote, a nonempty
maximal run without quotes, a quote, a closing parenthesis.  Returns the
consumed length and the title capture. -/
def rule1Tail (u : List Char) : Option (Nat × List Char) :=
  let w := u.takeWhile rsWhitespace
  if w.isEmpty then none
  else
    match u.dropWhile rsWhitespace with
    | q :: v =>
      if q == '"' then
        let t := v.takeWhile (fun c => c != '"')
        if t.isEmpty then none
        else
          match v.dropWhile (fun c => c != '"') with
          | q2 :: p :: _ =>
            if q2 == '"' && p == ')' then some (w.length + 1 + t.length + 2, t)
            else none
          | _ => none
      else none
    | [] => none

/-- Backtracking search for `([^)]+)\s+"([^"]+)"\)` at the head of `r3`:
the greedy `[^)]+` prefers the longest candidate, so candidate lengths are
tried from `k` (initially the length of the maximal run without `')'`)
downwards.  Returns the url length, the tail's consumed length, and the
title. -/
def rule1Search (r3 : List Char) : Nat → Option (Nat × Nat × List Char)
  | 0 => none
  | k + 1 =>
    match rule1Tail (r3.drop (k + 1)) with
    | some (tc, t) => some (k + 1, tc, t)
    | none => rule1Search r3 k

/-- Rule 1, `!\[([^\]]*)\]\(([^)]+)\s+"([^"]+)"\)` with replacement
`{image:$2}[$1]` (the title `$3` is discarded). -/
def rule1Match (l : List Char) : Option (Nat × List Char) :=
  match l with
  | c0 :: c1 :: r1 =>
    if c0 == '!' && c1 == '[' then
      let alt := r1.takeWhile (fun c => c != ']')
      match r1.dropWhile (fun c => c != ']') with
      | b0 :: b1 :: r3 =>
        if b0 == ']' && b1 == '(' then
          match rule1Search r3 (r3.takeWhile (fun c => c != ')')).length with
          | some (k, tc, _) =>
            some (2 + alt.length + 2 + k + tc,
              '\x7b' :: ("image:".toList ++
                (r3.take k ++ ('\x7d' :: '[' :: (alt ++ [']'])))))
          | none => none
        else none
      | _ => none
    else none
  | _ => none

/-- Rule 2, `!\[([^\]]*)\]\(([^)]+)\)` with replacement `{image:$2}[$1]`. -/
def rule2Match (l : List Char) : Option (Nat × List Char) :=
  match l with
  | c0 :: c1 :: r1 =>
    if c0 == '!' && c1 == '[' then
      let alt := r1.takeWhile (fun c => c != ']')
      match r1.dropWhile (fun c => c != ']') with
      | b0 :: b1 :: r3 =>
        if b0 == ']' && b1 == '(' then
          let url := r3.takeWhile (fun c => c != ')')
          if url.isEmpty then none
          else
            match r3.dropWhile (fun c => c != ')') with
            | p :: _ =>
              if p == ')' then
                some (2 + alt.length + 2 + url.length + 1,
                  '\x7b' :: ("image:".toList ++
                    (url ++ ('\x7d' :: '[' :: (alt ++ [']'])))))
              else none
            | [] => none
        else none
      | _ => none
    else none
  | _ => none

/-- Rule 3, `!\[([^\]]*)\]\[([^\]]*)\]` with replacement `{image:$2}[$1]`. -/
def rule3Match (l : List Char) : Option (Nat × List Char) :=
  match l with
  | c0 :: c1 :: r1 =>
    if c0 == '!' && c1 == '[' then
      let alt := r1.takeWhile (fun c => c != ']')
      match r1.dropWhile (fun c => c != ']') with
      | b0 :: b1 :: r3 =>
        if b0 == ']' && b1 == '[' then
          let ref := r3.takeWhile (fun c => c != ']')
          match r3.dropWhile (fun c => c != ']') with
          | p :: _ =>
            if p == ']' then
              some (2 + alt.length + 2 + ref.length + 1,
                '\x7b' :: ("image:".toList ++
                  (ref ++ ('\x7d' :: '[' :: (alt ++ [']'])))))
            else none
          | [] => none
        else none
      | _ => none
    else none
  | _ => none

/-- Rule 4, `\[([^\]]+)\]\(([^)]+)\)` with replacement `{$2}[$1]`. -/
def rule4Match (l : List Char) : Option (Nat × List Char) :=
  match l with
  | c0 :: r1 =>
    if c0 == '[' then
      let txt := r1.takeWhile (fun c => c != ']')
      if txt.isEmpty then none
      else
        match r1.dropWhile (fun c => c != ']') with
        | b0 :: b1 :: r3 =>
          if b0 == ']' && b1 == '(' then
            let url := r3.takeWhile (fun c => c != ')')
            if url.isEmpty then none
            else
              match r3.dropWhile (fun c => c != ')') with
              | p :: _ =>
                if p == ')' then
                  some (1 + txt.length + 2 + url.length + 1,
                    '\x7b' :: (url ++ ('\x7d' :: '[' :: (txt ++ [']']))))
                else none
              | [] => none
          else none
        | _ => none
    else none
  | [] => none

/-- Rule 5, `\[([^\]]+)\]\[([^\]]*)\]` with replacement `{$2}[$1]`. -/
def rule5Match (l : List Char) : Option (Nat × List Char) :=
  match l with
  | c0 :: r1 =>
    if c0 == '[' then
      let txt := r1.takeWhile (fun c => c != ']')
      if txt.isEmpty then none
      else
        match r1.dropWhile (fun c => c != ']') with
        | b0 :: b1 :: r3 =>
          if b0 == ']' && b1 == '[' then
            let ref := r3.takeWhile (fun c => c != ']')
            match r3.dropWhile (fun c => c != ']') with
            | p :: _ =>
              if p == ']' then
                some (1 + txt.length + 2 + ref.length + 1,
                  '\x7b' :: (ref ++ ('\x7d' :: '[' :: (txt ++ [']']))))
              else none
            | [] => none
          else none
        | _ => none
    else none
  | [] => none

/-- Rule 6, `\[\[([^\]]+)\]\]` with replacement `{:$1.norg:}`. -/
def rule6Match (l : List Char) : Option (Nat × List Char) :=
  match l with
  | c0 :: c1 :: r1 =>
    if c0 == '[' && c1 == '[' then
      let target := r1.takeWhile (fun c => c != ']')
      if target.isEmpty then none
      else
        match r1.dropWhile (fun c => c != ']') with
        | b0 :: b1 :: _ =>
          if b0 == ']' && b1 == ']' then
            some (2 + target.length + 2,
              '\x7b' :: ':' :: (target ++ (".norg:".toList ++ ['\x7d'])))
          else none
        | _ => none
    else none
  | _ => none

/-- The optional title group `(?:\s+"([^"]+)")?` of rule 7, tried greedily at
the head of `u`.  Returns the consumed length and the title, or `none` when
the optional group matches the empty string. -/
def rule7Title (u : List Char) : Option (Nat × List Char) :=
  let w := u.takeWhile rsWhitespace
  if w.isEmpty then none
  else
    match u.dropWhile rsWhitespace with
    | q :: v =>
      if q == '"' then
        let t := v.takeWhile (fun c => c != '"')
        if t.isEmpty then none
        else
          match v.dropWhile (fun c => c != '"') with
          | q2 :: _ =>
            if q2 == '"' then some (w.length + 1 + t.length + 1, t) else none
          | [] => none
      else none
    | [] => none

/-- Rule 7, `(?m)^\[([^\]]+)\]:\s*(\S+)(?:\s+"([^"]+)")?` with replacement
`@$1 $2 $3` (a missing title substitutes `$3` with the empty string, leaving
the template's literal space before it). -/
def rule7Match (l : List Char) : Option (Nat × List Char) :=
  match l with
  | c0 :: r1 =>
    if c0 == '[' then
      let id := r1.takeWhile (fun c => c != ']')
      if id.isEmpty then none
      else
        match r1.dropWhile (fun c => c != ']') with
        | b0 :: b1 :: r3 =>
          if b0 == ']' && b1 == ':' then
            let w := r3.takeWhile rsWhitespace
            let r4 := r3.dropWhile rsWhitespace
            let dest := r4.takeWhile (fun c => !rsWhitespace c)
            if dest.isEmpty then none
            else
              match rule7Title (r4.drop dest.length) with
              | some (tc, t) =>
                some (1 + id.length + 2 + w.length + dest.length + tc,
                  '@' :: (id ++ (' ' :: (dest ++ (' ' :: t)))))
              | none =>
                some (1 + id.length + 2 + w.length + dest.length,
                  '@' :: (id ++ (' ' :: (dest ++ [' ']))))
          else none
        | _ => none
    else none
  | [] => none

/-- The part of rule 8 after `https?://` was recognized: `[^>]+` (nonempty,
greedy, forced maximal) followed by `'>'`; `scheme` is the already recognized
`http://` or `https://`.  Replacement `{$1}[$1]` duplicates the url. -/
def rule8Fin (scheme : List Char) (r2 : List Char) : Option (Nat × List Char) :=
  let tail := r2.takeWhile (fun c => c != '>')
  if tail.isEmpty then none
  else
    match r2.dropWhile (fun c => c != '>') with
    | p :: _ =>
      if p == '>' then
        let url := scheme ++ tail
        some (1 + url.length + 1,
          '\x7b' :: (url ++ ('\x7d' :: '[' :: (url ++ [']']))))
      else none
    | [] => none

/-- Rule 8, `<(https?://[^>]+)>` with replacement `{$1}[$1]`.  The greedy
`s?` takes the `'s'` when `://` follows it, else falls back to matching
`://` directly. -/
def rule8Match (l : List Char) : Option (Nat × List Char) :=
  match l with
  | c0 :: c1 :: c2 :: c3 :: c4 :: r =>
    if c0 == '<' && c1 == 'h' && c2 == 't' && c3 == 't' && c4 == 'p' then
      match r with
      | d0 :: d1 :: d2 :: d3 :: r2 =>
        if d0 == 's' && d1 == ':' && d2 == '/' && d3 == '/' then
          rule8Fin "https://".toList r2
        else if d0 == ':' && d1 == '/' && d2 == '/' then
          rule8Fin "http://".toList (d3 :: r2)
        else none
      | d0 :: d1 :: d2 :: r2 =>
        if d0 == ':' && d1 == '/' && d2 == '/' then rule8Fin "http://".toList r2
        else none
      | _ => none
    else none
  | _ => none

/-- The inline-span rewrite pass (pass 1): the eight `replace_all` rules of
the `link_conversions` array applied sequentially, rule 1 first.  Rule 7 is
the only `(?m)^`-anchored one. -/
def inlineRules (l : List Char) : List Char :=
  replaceAll rule8Match
    (replaceAllAnchored rule7Match
      (replaceAll rule6Match
        (replaceAll rule5Match
          (replaceAll rule4Match
            (replaceAll rule3Match
              (replaceAll rule2Match
                (replaceAll rule1Match l)))))))

def linkPass (content : List Char) : List Char :=
  inlineRules content

/-- The heading regex `^(#+)\s+(.*)$` matched against a whole line: a maximal
nonempty run of `'#'`, a maximal nonempty whitespace run, and the rest, which
(`.` not matching `'\n'`, `$` being end of haystack) must contain no
`'\n'`.  Returns the heading level and the text capture. -/
def headingMatch (l : List Char) : Option (Nat × List Char) :=
  let hashes := l.takeWhile (fun c => c == '#')
  let rest := l.dropWhile (fun c => c == '#')
  let ws := rest.takeWhile rsWhitespace
  let text := rest.dropWhile rsWhitespace
  if !hashes.isEmpty && !ws.isEmpty && !(text.contains '\n') then
    some (hashes.length, text)
  else none

/-- The unchecked-task regex `^(\s*)- \[ \] (.*)$`: a maximal (possibly
empty) leading whitespace run, the literal `"- [ ] "`, and the rest without
`'\n'`.  Returns the indent and text captures. -/
def uncheckedTaskMatch (l : List Char) : Option (List Char × List Char) :=
  match l.dropWhile rsWhitespace with
  | d0 :: d1 :: d2 :: d3 :: d4 :: d5 :: text =>
    if d0 == '-' && d1 == ' ' && d2 == '[' && d3 == ' ' && d4 == ']' &&
        d5 == ' ' && !(text.contains '\n') then
      some (l.takeWhile rsWhitespace, text)
    else none
  | _ => none

/-- The checked-task regex `^(\s*)- \[x\] (.*)$` (lowercase `x` only). -/
def checkedTaskMatch (l : List Char) : Option (List Char × List Char) :=
  match l.dropWhile rsWhitespace with
  | d0 :: d1 :: d2 :: d3 :: d4 :: d5 :: text =>
    if d0 == '-' && d1 == ' ' && d2 == '[' && d3 == 'x' && d4 == ']' &&
        d5 == ' ' && !(text.contains '\n') then
      some (l.takeWhile rsWhitespace, text)
    else none
  | _ => none

/-- The generic list-item regex `^(\s*)[-*+]\s+(.*)$`: a maximal leading
whitespace run, one of `-`/`*`/`+`, a maximal nonempty whitespace run, and
the rest without `'\n'`. -/
def listItemMatch (l : List Char) : Option (List Char × List Char) :=
  match l.dropWhile rsWhitespace with
  | m :: rest =>
    if m == '-' || m == '*' || m == '+' then
      let ws := rest.takeWhile rsWhitespace
      let text := rest.dropWhile rsWhitespace
      if !ws.isEmpty && !(text.contains '\n') then
        some (l.takeWhile rsWhitespace, text)
      else none
    else none
  | [] => none

/-- The line-classification pass on one line, in the program's order:
heading, unchecked task, checked task, generic list item, plain; every
branch appends exactly one `'\n'`. -/
def classifyLine (line : List Char) : List Char :=
  match headingMatch line with
  | some (level, text) => List.replicate level '*' ++ ' ' :: (text ++ ['\n'])
  | none =>
    match uncheckedTaskMatch line with
    | some (indent, text) => indent ++ ("-- ( ) ".toList ++ (text ++ ['\n']))
    | none =>
      match checkedTaskMatch line with
      | some (indent, text) => indent ++ ("-- (x) ".toList ++ (text ++ ['\n']))
      | none =>
        match listItemMatch line with
        | some (indent, text) => indent ++ ("-- ".toList ++ (text ++ ['\n']))
        | none => line ++ ['\n']

/-- Pass 2: `for line in content.lines()` with the per-line rewrite. -/
def linePass (content : List Char) : List Char :=
  ((rustLines content).map classifyLine).flatten

/-- Index of the first occurrence of a triple backtick, the lazy search of
`([\s\S]*?)` for the closing fence. -/
def findFence : List Char → Option Nat
  | c1 :: c2 :: c3 :: tl =>
    if isTick c1 && isTick c2 && isTick c3 then some 0
    else (findFence (c2 :: c3 :: tl)).map (· + 1)
  | _ => none

/-- The fence regex ```` ```(\w*)\n([\s\S]*?)``` ```` matched at the head of
`l`, with the program's replacement closure: `@code `, the language tag, a
line break, the payload with trailing whitespace trimmed, a line break,
`@end`. -/
def fenceMatch (l : List Char) : Option (Nat × List Char) :=
  match l with
  | c1 :: c2 :: c3 :: rest =>
    if isTick c1 && isTick c2 && isTick c3 then
      let lang := rest.takeWhile rsWordChar
      match rest.dropWhile rsWordChar with
      | c4 :: body =>
        if c4 == '\n' then
          match findFence body with
          | some i =>
            some (3 + lang.length + 1 + (i + 3),
              '@' :: ("code ".toList ++
                (lang ++ ('\n' :: (trimEnd (body.take i) ++
                  ('\n' :: "@end".toList))))))
          | none => none
        else none
      | [] => none
    else none
  | _ => none

/-- Pass 3: `code_block_regex.replace_all` over the output of pass 2. -/
def codeBlockPass (s : List Char) : List Char :=
  replaceAll fenceMatch s

/-- The whole transformation: pass 1, then pass 2, then pass 3. -/
def transform (content : List Char) : List Char :=
  codeBlockPass (linePass (linkPass content))

/-- The embedded `convert_markdown_to_neorg`: the Rust function returns
`Result<String>` but has no error path (its only fallible steps are
`Regex::new` on constant, valid patterns), so it always returns `Ok`. -/
def convert_markdown_to_neorg (content : List Char) :
    Except String (List Char) :=
  Except.ok (transform content)

/-- Glue the pieces of `splitNl` back together with `'\n'`. -/
def joinNl : List (List Char) → List Char
  | [] => []
  | [l] => l
  | l :: ls => l ++ '\n' :: joinNl ls

/-- Modelled from the spec for claim C7's comparison: "applying the
non-reference-definition rules line by line" — the text is split at every
`'\n'`, the inline rules are applied to each line separately (rule 7, being
anchored at line start, anchors at the start of each line), and the lines are
rejoined.  This is the line-local reading of the inline pass that the spec
asserts to coincide with the whole-text pass. -/
def linkPassLineWise (s : List Char) : List Char :=
  joinNl ((splitNl s).map inlineRules)

/-! ### Generic list helpers -/

theorem takeLenAppend (xs ys : List Char) (k : Nat) :
    (xs ++ ys).take (xs.length + k) = xs ++ ys.take k := by
  induction xs with
  | nil => simp
  | cons x xs ih =>
    have h : (x :: xs).length + k = (xs.length + k) + 1 := by
      simp [List.length_cons]; omega
    simp only [h, List.cons_append, List.take_succ_cons, ih]

theorem takeAddApp (m n : Nat) (l : List Char) :
    l.take (m + n) = l.take m ++ (l.drop m).take n := by
  induction m generalizing l with
  | zero => simp
  | succ m ih =>
    cases l with
    | nil => simp
    | cons c tl =>
      have h : m + 1 + n = (m + n) + 1 := by omega
      simp only [h, List.take_succ_cons, List.drop_succ_cons, ih, List.cons_append]

theorem getLastApp {α : Type} (xs : List α) {ys : List α} (h : ys ≠ []) :
    (xs ++ ys).getLast? = ys.getLast? := by
  rw [List.getLast?_append]
  cases hy : ys.getLast? with
  | none => exact absurd (List.getLast?_eq_none_iff.mp hy) h
  | some y => rfl

theorem getLastConsNe {α : Type} {ys : List α} (c : α) (h : ys ≠ []) :
    (c :: ys).getLast? = ys.getLast? := by
  have := getLastApp [c] h
  simpa using this

theorem containsFalseOfNotMem {a : Char} {l : List Char} (h : a ∉ l) :
    l.contains a = false := by
  cases hc : l.contains a with
  | false => rfl
  | true => exact absurd (by simpa using hc) h

theorem notMemOfContainsFalse {a : Char} {l : List Char}
    (h : l.contains a = false) : a ∉ l := by
  intro hm
  rw [show l.contains a = true by simpa using hm] at h
  cases h

/-- Characters with different `rsWhitespace` values differ. -/
theorem rsWsNe {c : Char} (h : rsWhitespace c = true) {d : Char}
    (hd : rsWhitespace d = false) : c ≠ d := by
  intro he
  rw [he, hd] at h
  cases h

/-! ### `replaceAll` is the identity when no suffix matches -/

theorem replaceAllGoNil (m : List Char → Option (Nat × List Char))
    (fuel : Nat) : replaceAllGo m fuel [] = [] := by
  cases fuel <;> rfl

theorem replaceAllGoId (m : List Char → Option (Nat × List Char))
    (fuel : Nat) (l : List Char) (h : ∀ u, u <:+ l → m u = none) :
    replaceAllGo m fuel l = l := by
  induction fuel generalizing l with
  | zero => cases l <;> rfl
  | succ fuel ih =>
    cases l with
    | nil => rfl
    | cons c rest =>
      have hm := h (c :: rest) (List.suffix_refl _)
      simp only [replaceAllGo, hm]
      exact congrArg (c :: ·)
        (ih rest fun u hu => h u (hu.trans (List.suffix_cons c rest)))

theorem replaceAllId (m : List Char → Option (Nat × List Char))
    (l : List Char) (h : ∀ u, u <:+ l → m u = none) :
    replaceAll m l = l :=
  replaceAllGoId m l.length l h

theorem replaceAllAnchoredGoId (m : List Char → Option (Nat × List Char))
    (fuel : Nat) (b : Bool) (l : List Char) (h : ∀ u, u <:+ l → m u = none) :
    replaceAllAnchoredGo m fuel b l = l := by
  induction fuel generalizing b l with
  | zero => cases l <;> rfl
  | succ fuel ih =>
    cases l with
    | nil => rfl
    | cons c rest =>
      have hm := h (c :: rest) (List.suffix_refl _)
      have htail := ih (c == '\n') rest
        fun u hu => h u (hu.trans (List.suffix_cons c rest))
      cases b <;> simp [replaceAllAnchoredGo, hm, htail]

theorem replaceAllAnchoredId (m : List Char → Option (Nat × List Char))
    (l : List Char) (h : ∀ u, u <:+ l → m u = none) :
    replaceAllAnchored m l = l :=
  replaceAllAnchoredGoId m l.length true l h

/-! ### `replaceAll` maps nonempty texts to nonempty texts when every
replacement is nonempty -/

theorem replaceAllGoNeNil (m : List Char → Option (Nat × List Char))
    (hm : ∀ u p, m u = some p → p.2 ≠ []) (fuel : Nat) (l : List Char)
    (h : l ≠ []) : replaceAllGo m fuel l ≠ [] := by
  induction fuel generalizing l with
  | zero => cases l with | nil => exact absurd rfl h | cons c r => simp [replaceAllGo]
  | succ fuel ih =>
    cases l with
    | nil => exact absurd rfl h
    | cons c rest =>
      simp only [replaceAllGo]
      cases hmc : m (c :: rest) with
      | none => simp
      | some p =>
        obtain ⟨len, rep⟩ := p
        have hrep := hm _ _ hmc
        cases hl : (len == 0) with
        | true => simp [hl]
        | false =>
          simp only [hl, Bool.false_eq_true, if_false]
          cases rep with
          | nil => exact absurd rfl hrep
          | cons r rs => simp

theorem replaceAllAnchoredGoNeNil (m : List Char → Option (Nat × List Char))
    (hm : ∀ u p, m u = some p → p.2 ≠ []) (fuel : Nat) (b : Bool)
    (l : List Char) (h : l ≠ []) : replaceAllAnchoredGo m fuel b l ≠ [] := by
  induction fuel generalizing b l with
  | zero => cases l with | nil => exact absurd rfl h | cons c r => simp [replaceAllAnchoredGo]
  | succ fuel ih =>
    cases l with
    | nil => exact absurd rfl h
    | cons c rest =>
      simp only [replaceAllAnchoredGo]
      cases b with
      | false => simp
      | true =>
        simp only [if_pos rfl]
        cases hmc : m (c :: rest) with
        | none => simp
        | some p =>
          obtain ⟨len, rep⟩ := p
          have hrep := hm _ _ hmc
          cases hl : (len == 0) with
          | true => simp [hl]
          | false =>
            simp only [hl, Bool.false_eq_true, if_false]
            cases rep with
            | nil => exact absurd rfl hrep
            | cons r rs => simp

/-! ### No inline rule matches a text without `'['` and `'<'`: every rule's
pattern contains one of those literals -/

theorem rule1MatchNone {u : List Char} (h : '[' ∉ u) : rule1Match u = none := by
  cases u with
  | nil => rfl
  | cons c0 v =>
    cases v with
    | nil => rfl
    | cons c1 r =>
      have h1 : c1 ≠ '[' := fun he => h (by simp [he])
      simp [rule1Match, h1]

theorem rule2MatchNone {u : List Char} (h : '[' ∉ u) : rule2Match u = none := by
  cases u with
  | nil => rfl
  | cons c0 v =>
    cases v with
    | nil => rfl
    | cons c1 r =>
      have h1 : c1 ≠ '[' := fun he => h (by simp [he])
      simp [rule2Match, h1]

theorem rule3MatchNone {u : List Char} (h : '[' ∉ u) : rule3Match u = none := by
  cases u with
  | nil => rfl
  | cons c0 v =>
    cases v with
    | nil => rfl
    | cons c1 r =>
      have h1 : c1 ≠ '[' := fun he => h (by simp [he])
      simp [rule3Match, h1]

theorem rule4MatchNone {u : List Char} (h : '[' ∉ u) : rule4Match u = none := by
  cases u with
  | nil => rfl
  | cons c0 v =>
    have h0 : c0 ≠ '[' := fun he => h (by simp [he])
    simp [rule4Match, h0]

theorem rule5MatchNone {u : List Char} (h : '[' ∉ u) : rule5Match u = none := by
  cases u with
  | nil => rfl
  | cons c0 v =>
    have h0 : c0 ≠ '[' := fun he => h (by simp [he])
    simp [rule5Match, h0]

theorem rule6MatchNone {u : List Char} (h : '[' ∉ u) : rule6Match u = none := by
  cases u with
  | nil => rfl
  | cons c0 v =>
    cases v with
    | nil => rfl
    | cons c1 r =>
      have h0 : c0 ≠ '[' := fun he => h (by simp [he])
      simp [rule6Match, h0]

theorem rule7MatchNone {u : List Char} (h : '[' ∉ u) : rule7Match u = none := by
  cases u with
  | nil => rfl
  | cons c0 v =>
    have h0 : c0 ≠ '[' := fun he => h (by simp [he])
    simp [rule7Match, h0]

theorem rule8MatchNone {u : List Char} (h : '<' ∉ u) : rule8Match u = none := by
  rcases u with _ | ⟨c0, _ | ⟨c1, _ | ⟨c2, _ | ⟨c3, _ | ⟨c4, r⟩⟩⟩⟩⟩ <;> try rfl
  have h0 : c0 ≠ '<' := fun he => h (by simp [he])
  simp [rule8Match, h0]

/-- The whole inline-span pass leaves a text without `'['` and `'<'`
unchanged. -/
theorem inlineRulesId {s : List Char} (h1 : '[' ∉ s) (h2 : '<' ∉ s) :
    inlineRules s = s := by
  have e1 : replaceAll rule1Match s = s :=
    replaceAllId _ _ fun u hu => rule1MatchNone fun hm => h1 (hu.subset hm)
  have e2 : replaceAll rule2Match s = s :=
    replaceAllId _ _ fun u hu => rule2MatchNone fun hm => h1 (hu.subset hm)
  have e3 : replaceAll rule3Match s = s :=
    replaceAllId _ _ fun u hu => rule3MatchNone fun hm => h1 (hu.subset hm)
  have e4 : replaceAll rule4Match s = s :=
    replaceAllId _ _ fun u hu => rule4MatchNone fun hm => h1 (hu.subset hm)
  have e5 : replaceAll rule5Match s = s :=
    replaceAllId _ _ fun u hu => rule5MatchNone fun hm => h1 (hu.subset hm)
  have e6 : replaceAll rule6Match s = s :=
    replaceAllId _ _ fun u hu => rule6MatchNone fun hm => h1 (hu.subset hm)
  have e7 : replaceAllAnchored rule7Match s = s :=
    replaceAllAnchoredId _ _ fun u hu => rule7MatchNone fun hm => h1 (hu.subset hm)
  have e8 : replaceAll rule8Match s = s :=
    replaceAllId _ _ fun u hu => rule8MatchNone fun hm => h2 (hu.subset hm)
  unfold inlineRules
  rw [e1, e2, e3, e4, e5, e6, e7, e8]

theorem linkPassId {s : List Char} (h1 : '[' ∉ s) (h2 : '<' ∉ s) :
    linkPass s = s :=
  inlineRulesId h1 h2

/-! ### Structure of `splitNl`, `linesOfPieces`, `rustLines` -/

theorem splitNlNeNil (s : List Char) : splitNl s ≠ [] := by
  cases s with
  | nil => simp [splitNl]
  | cons c tl =>
    simp only [splitNl]
    split
    · simp
    · split <;> simp

theorem splitNlNoNl (s : List Char) : ∀ p ∈ splitNl s, '\n' ∉ p := by
  induction s with
  | nil =>
    intro p hp
    simp only [splitNl, List.mem_singleton] at hp
    simp [hp]
  | cons c tl ih =>
    intro p hp
    simp only [splitNl] at hp
    by_cases hc : c = '\n'
    · rw [if_pos (by simp [hc])] at hp
      rcases List.mem_cons.mp hp with rfl | hp'
      · simp
      · exact ih p hp'
    · rw [if_neg (by simp [hc])] at hp
      cases hsp : splitNl tl with
      | nil => exact absurd hsp (splitNlNeNil tl)
      | cons hd t =>
        rw [hsp] at hp
        rcases List.mem_cons.mp hp with rfl | hpt
        · intro hm
          rcases List.mem_cons.mp hm with he | hm2
          · exact hc he.symm
          · exact ih hd (by rw [hsp]; exact List.mem_cons_self _ _) hm2
        · exact ih p (by rw [hsp]; exact List.mem_cons_of_mem _ hpt)

theorem splitNlAppendNl {b : List Char} (rest : List Char) (h : '\n' ∉ b) :
    splitNl (b ++ '\n' :: rest) = b :: splitNl rest := by
  induction b with
  | nil => simp [splitNl]
  | cons c b ih =>
    have hc : c ≠ '\n' := fun he => h (by simp [he])
    have hb : '\n' ∉ b := fun hm => h (List.mem_cons_of_mem _ hm)
    simp [splitNl, hc, ih hb]

theorem splitNlNoNlEq {s : List Char} (h : '\n' ∉ s) : splitNl s = [s] := by
  induction s with
  | nil => rfl
  | cons c tl ih =>
    have hc : c ≠ '\n' := fun he => h (by simp [he])
    have htl : '\n' ∉ tl := fun hm => h (List.mem_cons_of_mem _ hm)
    simp [splitNl, hc, ih htl]

theorem linesOfPiecesCons (b : List Char) {ps : List (List Char)}
    (h : ps ≠ []) :
    linesOfPieces (b :: ps) = stripCR b :: linesOfPieces ps := by
  unfold linesOfPieces
  cases hg : ps.getLast? with
  | none => exact absurd (List.getLast?_eq_none_iff.mp hg) h
  | some g =>
    rw [getLastConsNe b h, hg, List.dropLast_cons_of_ne_nil h, List.map_cons]
    rfl

theorem rustLinesEq (s : List Char) : rustLines s = linesOfPieces (splitNl s) := by
  cases s with
  | nil => rfl
  | cons c tl => rfl

theorem rustLinesTerminated {b : List Char} (rest : List Char) (h : '\n' ∉ b) :
    rustLines (b ++ '\n' :: rest) = stripCR b :: rustLines rest := by
  rw [rustLinesEq, rustLinesEq, splitNlAppendNl rest h,
    linesOfPiecesCons b (splitNlNeNil rest)]

theorem rustLinesSingle {s : List Char} (hne : s ≠ []) (h : '\n' ∉ s) :
    rustLines s = [s] := by
  rw [rustLinesEq, splitNlNoNlEq h]
  unfold linesOfPieces
  simp [List.isEmpty_iff, hne]

theorem rustLinesNeNil {s : List Char} (h : s ≠ []) : rustLines s ≠ [] := by
  have hkey : ∀ (p : List Char) (ps : List (List Char)),
      p ≠ [] ∨ ps ≠ [] → linesOfPieces (p :: ps) ≠ [] := by
    intro p ps hp
    cases ps with
    | nil =>
      rcases hp with hp | hp
      · simp [linesOfPieces, List.isEmpty_iff, hp]
      · exact absurd rfl hp
    | cons q ps' =>
      cases hg : (p :: q :: ps').getLast? with
      | none => simp at hg
      | some g => simp [linesOfPieces, hg]
  cases s with
  | nil => exact absurd rfl h
  | cons c tl =>
    rw [rustLinesEq]
    simp only [splitNl]
    by_cases hc : c = '\n'
    · rw [if_pos (by simp [hc])]
      exact hkey _ _ (Or.inr (splitNlNeNil tl))
    · rw [if_neg (by simp [hc])]
      cases hsp : splitNl tl with
      | nil => exact hkey _ _ (Or.inl (by simp))
      | cons hd t => exact hkey _ _ (Or.inl (by simp))

theorem stripCRSubset (l : List Char) : stripCR l ⊆ l := by
  unfold stripCR
  split
  · exact List.dropLast_subset l
  · exact fun a ha => ha

theorem linesOfPiecesMem {ps : List (List Char)} {l : List Char}
    (h : l ∈ linesOfPieces ps) : ∃ p ∈ ps, l ⊆ p := by
  unfold linesOfPieces at h
  cases hg : ps.getLast? with
  | none => rw [hg] at h; cases h
  | some g =>
    rw [hg] at h
    rcases List.mem_append.mp h with hm | hm
    · obtain ⟨p, hp, rfl⟩ := List.mem_map.mp hm
      exact ⟨p, List.dropLast_subset ps hp, stripCRSubset p⟩
    · split at hm
      · cases hm
      · rw [List.mem_singleton] at hm
        subst hm
        exact ⟨l, List.mem_of_getLast?_eq_some hg, fun a ha => ha⟩

theorem rustLinesNoNl {s l : List Char} (h : l ∈ rustLines s) : '\n' ∉ l := by
  rw [rustLinesEq] at h
  obtain ⟨p, hp, hsub⟩ := linesOfPiecesMem h
  exact fun hm => splitNlNoNl s p hp (hsub hm)

/-! ### Flattening `'\n'`-terminated chunks -/

theorem flattenTerminatedLast {cs : List (List Char)} (hne : cs ≠ [])
    (h : ∀ c ∈ cs, ∃ b, c = b ++ ['\n']) :
    cs.flatten ≠ [] ∧ cs.flatten.getLast? = some '\n' := by
  induction cs with
  | nil => exact absurd rfl hne
  | cons c cs ih =>
    cases cs with
    | nil =>
      obtain ⟨b, rfl⟩ := h _ (List.mem_cons_self _ _)
      constructor
      · simp
      · simp [List.getLast?_concat]
    | cons c' cs' =>
      obtain ⟨hne', hlast⟩ :=
        ih (by simp) (fun x hx => h x (List.mem_cons_of_mem _ hx))
      rw [List.flatten_cons]
      refine ⟨fun hemp => hne' (List.append_eq_nil.mp hemp).2, ?_⟩
      rw [getLastApp _ hne', hlast]

theorem rustLinesFlattenLength {cs : List (List Char)}
    (h : ∀ c ∈ cs, ∃ b, c = b ++ ['\n'] ∧ '\n' ∉ b) :
    (rustLines cs.flatten).length = cs.length := by
  induction cs with
  | nil => simp [rustLines]
  | cons c cs ih =>
    obtain ⟨b, hb, hnb⟩ := h _ (List.mem_cons_self _ _)
    rw [List.flatten_cons, hb, List.append_assoc, List.singleton_append,
      rustLinesTerminated _ hnb]
    simp [ih (fun x hx => h x (List.mem_cons_of_mem _ hx))]

/-! ### Inversion facts for the line matchers: the captured text carries no
`'\n'` (the guard translated from `(.*)$`), and the indent is the maximal
leading whitespace run -/

theorem headingMatchSome {l : List Char} {n : Nat} {text : List Char}
    (h : headingMatch l = some (n, text)) :
    text.contains '\n' = false ∧
      text = (l.dropWhile (fun c => c == '#')).dropWhile rsWhitespace := by
  unfold headingMatch at h
  dsimp only at h
  split at h
  · rename_i hcond
    simp only [Option.some.injEq, Prod.mk.injEq] at h
    obtain ⟨-, rfl⟩ := h
    simp only [Bool.and_eq_true, Bool.not_eq_true'] at hcond
    exact ⟨hcond.2, rfl⟩
  · exact absurd h (by simp)

theorem uncheckedTaskMatchSome {l : List Char} {indent text : List Char}
    (h : uncheckedTaskMatch l = some (indent, text)) :
    indent = l.takeWhile rsWhitespace ∧ text.contains '\n' = false := by
  unfold uncheckedTaskMatch at h
  split at h
  · split at h
    · rename_i hcond
      simp only [Option.some.injEq, Prod.mk.injEq] at h
      obtain ⟨rfl, rfl⟩ := h
      simp only [Bool.and_eq_true, Bool.not_eq_true'] at hcond
      exact ⟨rfl, hcond.2⟩
    · exact absurd h (by simp)
  · exact absurd h (by simp)

theorem checkedTaskMatchSome {l : List Char} {indent text : List Char}
    (h : checkedTaskMatch l = some (indent, text)) :
    indent = l.takeWhile rsWhitespace ∧ text.contains '\n' = false := by
  unfold checkedTaskMatch at h
  split at h
  · split at h
    · rename_i hcond
      simp only [Option.some.injEq, Prod.mk.injEq] at h
      obtain ⟨rfl, rfl⟩ := h
      simp only [Bool.and_eq_true, Bool.not_eq_true'] at hcond
      exact ⟨rfl, hcond.2⟩
    · exact absurd h (by simp)
  · exact absurd h (by simp)

theorem listItemMatchSome {l : List Char} {indent text : List Char}
    (h : listItemMatch l = some (indent, text)) :
    indent = l.takeWhile rsWhitespace ∧ text.contains '\n' = false := by
  unfold listItemMatch at h
  split at h
  · split at h
    · dsimp only at h
      split at h
      · rename_i hcond
        simp only [Option.some.injEq, Prod.mk.injEq] at h
        obtain ⟨rfl, rfl⟩ := h
        simp only [Bool.and_eq_true, Bool.not_eq_true'] at hcond
        exact ⟨rfl, hcond.2⟩
      · exact absurd h (by simp)
    · exact absurd h (by simp)
  · exact absurd h (by simp)

/-- Every line rewritten by `classifyLine` is a chunk `b ++ ['\n']` with no
interior `'\n'`, provided the line itself had none. -/
theorem classifyLineChunk (line : List Char) (h : '\n' ∉ line) :
    ∃ b, classifyLine line = b ++ ['\n'] ∧ '\n' ∉ b := by
  have hindent : '\n' ∉ line.takeWhile rsWhitespace :=
    fun hm => h ((List.takeWhile_sublist _).subset hm)
  unfold classifyLine
  cases hh : headingMatch line with
  | some p =>
    obtain ⟨n, text⟩ := p
    have htext := (headingMatchSome hh).1
    refine ⟨List.replicate n '*' ++ ' ' :: text, by simp, ?_⟩
    intro hm
    rcases List.mem_append.mp hm with hm | hm
    · exact absurd (List.mem_replicate.mp hm).2 (by decide)
    · rcases List.mem_cons.mp hm with he | hm2
      · exact absurd he (by decide)
      · exact notMemOfContainsFalse htext hm2
  | none =>
    cases hu : uncheckedTaskMatch line with
    | some p =>
      obtain ⟨indent, text⟩ := p
      obtain ⟨hi, htext⟩ := uncheckedTaskMatchSome hu
      refine ⟨indent ++ ("-- ( ) ".toList ++ text), by simp, ?_⟩
      intro hm
      rcases List.mem_append.mp hm with hm | hm
      · exact hindent (hi ▸ hm)
      · rcases List.mem_append.mp hm with hm | hm
        · exact absurd hm (by decide)
        · exact notMemOfContainsFalse htext hm
    | none =>
      cases hx : checkedTaskMatch line with
      | some p =>
        obtain ⟨indent, text⟩ := p
        obtain ⟨hi, htext⟩ := checkedTaskMatchSome hx
        refine ⟨indent ++ ("-- (x) ".toList ++ text), by simp, ?_⟩
        intro hm
        rcases List.mem_append.mp hm with hm | hm
        · exact hindent (hi ▸ hm)
        · rcases List.mem_append.mp hm with hm | hm
          · exact absurd hm (by decide)
          · exact notMemOfContainsFalse htext hm
      | none =>
        cases hli : listItemMatch line with
        | some p =>
          obtain ⟨indent, text⟩ := p
          obtain ⟨hi, htext⟩ := listItemMatchSome hli
          refine ⟨indent ++ ("-- ".toList ++ text), by simp, ?_⟩
          intro hm
          rcases List.mem_append.mp hm with hm | hm
          · exact hindent (hi ▸ hm)
          · rcases List.mem_append.mp hm with hm | hm
            · exact absurd hm (by decide)
            · exact notMemOfContainsFalse htext hm
        | none => exact ⟨line, rfl, h⟩

/-- `classifyLine` always produces a `'\n'`-terminated chunk (no hypothesis
needed for termination alone). -/
theorem classifyLineTerminated (line : List Char) :
    ∃ b, classifyLine line = b ++ ['\n'] := by
  unfold classifyLine
  cases hh : headingMatch line with
  | some p =>
    obtain ⟨n, text⟩ := p
    exact ⟨List.replicate n '*' ++ ' ' :: text, by simp⟩
  | none =>
    cases hu : uncheckedTaskMatch line with
    | some p =>
      obtain ⟨indent, text⟩ := p
      exact ⟨indent ++ ("-- ( ) ".toList ++ text), by simp⟩
    | none =>
      cases hx : checkedTaskMatch line with
      | some p =>
        obtain ⟨indent, text⟩ := p
        exact ⟨indent ++ ("-- (x) ".toList ++ text), by simp⟩
      | none =>
        cases hli : listItemMatch line with
        | some p =>
          obtain ⟨indent, text⟩ := p
          exact ⟨indent ++ ("-- ".toList ++ text), by simp⟩
        | none => exact ⟨line, rfl⟩

/-! ### The fence pass: structure of its matches -/

theorem takeCons3 (a b c : Char) (r : List Char) (k : Nat) :
    (a :: b :: c :: r).take (k + 3) = a :: b :: c :: r.take k := by
  have h : k + 3 = ((k + 1) + 1) + 1 := by omega
  rw [h, List.take_succ_cons, List.take_succ_cons, List.take_succ_cons]

theorem findFenceSome : ∀ (l : List Char) (i : Nat), findFence l = some i →
    i + 3 ≤ l.length ∧ l.drop i = tick :: tick :: tick :: l.drop (i + 3) := by
  intro l
  induction l with
  | nil => intro i h; exact absurd h (by simp [findFence])
  | cons c1 tl ih =>
    intro i h
    cases tl with
    | nil => exact absurd h (by simp [findFence])
    | cons c2 tl2 =>
      cases tl2 with
      | nil => exact absurd h (by simp [findFence])
      | cons c3 tl3 =>
        have hstep : findFence (c1 :: c2 :: c3 :: tl3) =
            if isTick c1 && isTick c2 && isTick c3 then some 0
            else (findFence (c2 :: c3 :: tl3)).map (· + 1) := rfl
        rw [hstep] at h
        by_cases htk : (isTick c1 && isTick c2 && isTick c3) = true
        · rw [if_pos htk] at h
          obtain rfl : (0 : Nat) = i := by simpa using h
          simp only [Bool.and_eq_true] at htk
          obtain ⟨⟨h1, h2⟩, h3⟩ := htk
          have e1 : c1 = tick := by simpa [isTick] using h1
          have e2 : c2 = tick := by simpa [isTick] using h2
          have e3 : c3 = tick := by simpa [isTick] using h3
          subst e1; subst e2; subst e3
          exact ⟨by simp, by simp⟩
        · rw [if_neg htk] at h
          cases hf : findFence (c2 :: c3 :: tl3) with
          | none => rw [hf] at h; cases h
          | some j =>
            rw [hf] at h
            simp only [Option.map, Option.some.injEq] at h
            obtain ⟨hle, hdrop⟩ := ih j hf
            subst h
            constructor
            · simp only [List.length_cons] at hle ⊢
              omega
            · have harr : j + 1 + 3 = (j + 3) + 1 := by omega
              rw [harr, List.drop_succ_cons, List.drop_succ_cons]
              exact hdrop

/-- Any fence match consumes at least one character, stays inside the text,
and the consumed prefix ends with a backtick (the closing fence). -/
theorem fenceMatchSome {l : List Char} {len : Nat} {rep : List Char}
    (h : fenceMatch l = some (len, rep)) :
    1 ≤ len ∧ len ≤ l.length ∧ (l.take len).getLast? = some tick := by
  unfold fenceMatch at h
  split at h
  case h_2 => exact absurd h (by simp)
  rename_i c1 c2 c3 rest
  split at h
  case isFalse => exact absurd h (by simp)
  rename_i htk
  dsimp only at h
  split at h
  case h_2 => exact absurd h (by simp)
  rename_i c4 body heq2
  split at h
  case isFalse => exact absurd h (by simp)
  rename_i hc4
  split at h
  case h_2 => exact absurd h (by simp)
  rename_i i heq3
  simp only [Option.some.injEq, Prod.mk.injEq] at h
  obtain ⟨rfl, -⟩ := h
  have hc4' : c4 = '\n' := by simpa using hc4
  subst hc4'
  obtain ⟨hle, hdrop⟩ := findFenceSome body i heq3
  have hrest : rest = rest.takeWhile rsWordChar ++ ('\n' :: body) := by
    conv_lhs => rw [← List.takeWhile_append_dropWhile rsWordChar rest]
    rw [heq2]
  set lang := rest.takeWhile rsWordChar with hlang
  have hrestlen : rest.length = lang.length + (1 + body.length) := by
    rw [hrest]
    simp
    omega
  refine ⟨by omega, ?_, ?_⟩
  · simp only [List.length_cons]
    omega
  · have hlen' : 3 + lang.length + 1 + (i + 3) = (lang.length + 1 + (i + 3)) + 3 := by
      omega
    rw [hlen', takeCons3]
    rw [hrest]
    have harr : lang.length + 1 + (i + 3) = lang.length + (1 + (i + 3)) := by omega
    rw [harr, takeLenAppend]
    have harr2 : 1 + (i + 3) = (i + 3) + 1 := by omega
    rw [harr2, List.take_succ_cons]
    rw [takeAddApp i 3 body, hdrop]
    set Z := List.take i body ++
      List.take 3 (tick :: tick :: tick :: List.drop (i + 3) body) with hZdef
    have hZ : Z = (List.take i body ++ [tick, tick]) ++ [tick] := by
      simp [hZdef]
    have hZne : Z ≠ [] := by rw [hZ]; simp
    have hZlast : Z.getLast? = some tick := by
      rw [hZ]
      exact List.getLast?_concat _
    rw [getLastConsNe c1 (by simp), getLastConsNe c2 (by simp),
      getLastConsNe c3 (by simp), getLastApp lang (by simp),
      getLastConsNe '\n' hZne, hZlast]

/-- The fence pass preserves a final `'\n'`. -/
theorem replaceAllGoFenceLast : ∀ (fuel : Nat) (l : List Char),
    l.length ≤ fuel → l.getLast? = some '\n' →
    (replaceAllGo fenceMatch fuel l).getLast? = some '\n' := by
  intro fuel
  induction fuel with
  | zero =>
    intro l hl hlast
    have : l = [] := by
      cases l with
      | nil => rfl
      | cons c r => simp at hl
    subst this
    simp at hlast
  | succ fuel ih =>
    intro l hl hlast
    cases l with
    | nil => simp at hlast
    | cons c rest =>
      simp only [replaceAllGo]
      cases hm : fenceMatch (c :: rest) with
      | none =>
        simp only [hm]
        by_cases hrne : rest = []
        · subst hrne
          rw [replaceAllGoNil]
          simpa using hlast
        · have hrl : rest.getLast? = some '\n' := by
            rw [← getLastConsNe c hrne]
            exact hlast
          have hih := ih rest (by simp at hl; omega) hrl
          have hne : replaceAllGo fenceMatch fuel rest ≠ [] := by
            intro hemp
            rw [hemp] at hih
            simp at hih
          rw [getLastConsNe c hne]
          exact hih
      | some p =>
        obtain ⟨len, rep⟩ := p
        obtain ⟨hlen1, hlenle, htick⟩ := fenceMatchSome hm
        have hlen0 : (len == 0) = false := by
          simp only [beq_eq_false_iff_ne]
          omega
        simp only [hm, hlen0, Bool.false_eq_true, if_false]
        have hdropeq : List.drop (len - 1) rest = List.drop len (c :: rest) := by
          have harr : len = (len - 1) + 1 := by omega
          conv_rhs => rw [harr]
          rw [List.drop_succ_cons]
        cases htail : List.drop len (c :: rest) with
        | nil =>
          exfalso
          have hle : (c :: rest).length ≤ len := List.drop_eq_nil_iff.mp htail
          rw [List.take_of_length_le hle] at htick
          rw [hlast] at htick
          have : '\n' = tick := by simpa using htick
          exact absurd this (by decide)
        | cons d ds =>
          have htne : List.drop len (c :: rest) ≠ [] := by simp [htail]
          have htlast : (List.drop len (c :: rest)).getLast? = some '\n' := by
            have hsplit := List.take_append_drop len (c :: rest)
            calc (List.drop len (c :: rest)).getLast?
                = ((c :: rest).take len ++ (c :: rest).drop len).getLast? :=
                  (getLastApp _ htne).symm
              _ = (c :: rest).getLast? := by rw [hsplit]
              _ = some '\n' := hlast
          have htlen : (List.drop len (c :: rest)).length ≤ fuel := by
            simp only [List.length_drop, List.length_cons] at *
            omega
          rw [hdropeq]
          have hih := ih _ htlen htlast
          have hne : replaceAllGo fenceMatch fuel (List.drop len (c :: rest)) ≠ [] := by
            intro hemp
            rw [hemp] at hih
            simp at hih
          rw [getLastApp rep hne]
          exact hih

theorem codeBlockPassLast {l : List Char} (h : l.getLast? = some '\n') :
    (codeBlockPass l).getLast? = some '\n' :=
  replaceAllGoFenceLast l.length l le_rfl h

/-! ### The fence pass is the identity on a single line: a match needs a
`'\n'` strictly inside it (between the opening fence and the closing
backticks), and a text whose only `'\n'` is final has no room for one -/

theorem fenceMatchNoneSingleNl {v : List Char} (h : '\n' ∉ v) :
    fenceMatch (v ++ ['\n']) = none := by
  cases v with
  | nil => rfl
  | cons a v1 =>
    cases v1 with
    | nil => rfl
    | cons b v2 =>
      cases v2 with
      | nil =>
        have hnt : isTick '\n' = false := by decide
        simp [fenceMatch, hnt]
      | cons c v3 =>
        have hv3 : '\n' ∉ v3 := fun hm => h (by simp [hm])
        show fenceMatch (a :: b :: c :: (v3 ++ ['\n'])) = none
        have hred : fenceMatch (a :: b :: c :: (v3 ++ ['\n'])) =
            if isTick a && isTick b && isTick c then
              match (v3 ++ ['\n']).dropWhile rsWordChar with
              | c4 :: body =>
                if c4 == '\n' then
                  match findFence body with
                  | some i =>
                    some (3 + ((v3 ++ ['\n']).takeWhile rsWordChar).length + 1 + (i + 3),
                      '@' :: ("code ".toList ++
                        ((v3 ++ ['\n']).takeWhile rsWordChar ++ ('\n' :: (trimEnd (body.take i) ++
                          ('\n' :: "@end".toList))))))
                  | none => none
                else none
              | [] => none
            else none := rfl
        rw [hred]
        by_cases htk : (isTick a && isTick b && isTick c) = true
        · rw [if_pos htk]
          rcases hdw : v3.dropWhile rsWordChar with _ | ⟨d, w⟩
          · have hall : ∀ x ∈ v3, rsWordChar x = true :=
              List.dropWhile_eq_nil_iff.mp hdw
            have hdweq : (v3 ++ ['\n']).dropWhile rsWordChar = ['\n'] := by
              rw [List.dropWhile_append_of_pos hall]
              rfl
            rw [hdweq]
            simp [findFence]
          · have hd_mem : d ∈ v3 :=
              (List.dropWhile_sublist _).subset (hdw ▸ List.mem_cons_self d w)
            have hdne : d ≠ '\n' := fun he => hv3 (he ▸ hd_mem)
            have hdweq : (v3 ++ ['\n']).dropWhile rsWordChar =
                d :: (w ++ ['\n']) := by
              rw [List.dropWhile_append, hdw]
              simp
            rw [hdweq]
            simp [hdne]
        · rw [if_neg htk]

theorem codeBlockPassIdSingleNl {t : List Char} (h : '\n' ∉ t) :
    codeBlockPass (t ++ ['\n']) = t ++ ['\n'] := by
  apply replaceAllId
  intro u hu
  by_cases hune : u = []
  · subst hune
    rfl
  · obtain ⟨pre, hpre⟩ := hu
    have hlast : u.getLast? = some '\n' := by
      have h1 := @getLastApp Char pre u hune
      rw [hpre] at h1
      rw [← h1, List.getLast?_concat]
    have hgl : u.getLast hune = '\n' := by
      have h2 := List.getLast?_eq_getLast u hune
      rw [hlast] at h2
      exact (Option.some.inj h2).symm
    have hu_eq : u = u.dropLast ++ ['\n'] := by
      conv_lhs => rw [← List.dropLast_concat_getLast hune]
      rw [hgl]
    have hdl : '\n' ∉ u.dropLast := by
      intro hm
      have h4 : pre ++ u.dropLast = t := by
        have h5 := congrArg List.dropLast hpre
        rwa [List.dropLast_append_of_ne_nil _ hune, List.dropLast_concat] at h5
      exact h (h4 ▸ List.mem_append.mpr (Or.inr hm))
    rw [hu_eq]
    exact fenceMatchNoneSingleNl hdl

/-! ### Every inline replacement is nonempty (each template contains a
literal `\x7b` or `@`), so pass 1 maps nonempty texts to nonempty texts -/

theorem rule1MatchRepNe : ∀ (u : List Char) (p : Nat × List Char),
    rule1Match u = some p → p.2 ≠ [] := by
  intro u p h
  unfold rule1Match at h
  repeat' (first | split at h | dsimp only at h)
  all_goals cases h
  all_goals simp

theorem rule2MatchRepNe : ∀ (u : List Char) (p : Nat × List Char),
    rule2Match u = some p → p.2 ≠ [] := by
  intro u p h
  unfold rule2Match at h
  repeat' (first | split at h | dsimp only at h)
  all_goals cases h
  all_goals simp

theorem rule3MatchRepNe : ∀ (u : List Char) (p : Nat × List Char),
    rule3Match u = some p → p.2 ≠ [] := by
  intro u p h
  unfold rule3Match at h
  repeat' (first | split at h | dsimp only at h)
  all_goals cases h
  all_goals simp

theorem rule4MatchRepNe : ∀ (u : List Char) (p : Nat × List Char),
    rule4Match u = some p → p.2 ≠ [] := by
  intro u p h
  unfold rule4Match at h
  repeat' (first | split at h | dsimp only at h)
  all_goals cases h
  all_goals simp

theorem rule5MatchRepNe : ∀ (u : List Char) (p : Nat × List Char),
    rule5Match u = some p → p.2 ≠ [] := by
  intro u p h
  unfold rule5Match at h
  repeat' (first | split at h | dsimp only at h)
  all_goals cases h
  all_goals simp

theorem rule6MatchRepNe : ∀ (u : List Char) (p : Nat × List Char),
    rule6Match u = some p → p.2 ≠ [] := by
  intro u p h
  unfold rule6Match at h
  repeat' (first | split at h | dsimp only at h)
  all_goals cases h
  all_goals simp

theorem rule7MatchRepNe : ∀ (u : List Char) (p : Nat × List Char),
    rule7Match u = some p → p.2 ≠ [] := by
  intro u p h
  unfold rule7Match at h
  repeat' (first | split at h | dsimp only at h)
  all_goals cases h
  all_goals simp

theorem rule8FinRepNe : ∀ (scheme r2 : List Char) (p : Nat × List Char),
    rule8Fin scheme r2 = some p → p.2 ≠ [] := by
  intro scheme r2 p h
  unfold rule8Fin at h
  repeat' (first | split at h | dsimp only at h)
  all_goals cases h
  all_goals simp

theorem rule8MatchRepNe : ∀ (u : List Char) (p : Nat × List Char),
    rule8Match u = some p → p.2 ≠ [] := by
  intro u p h
  unfold rule8Match at h
  repeat' (first | split at h | dsimp only at h)
  all_goals first
    | cases h
    | exact rule8FinRepNe _ _ _ h

theorem inlineRulesNeNil {s : List Char} (h : s ≠ []) : inlineRules s ≠ [] := by
  unfold inlineRules
  apply replaceAllGoNeNil _ rule8MatchRepNe
  apply replaceAllAnchoredGoNeNil _ rule7MatchRepNe
  apply replaceAllGoNeNil _ rule6MatchRepNe
  apply replaceAllGoNeNil _ rule5MatchRepNe
  apply replaceAllGoNeNil _ rule4MatchRepNe
  apply replaceAllGoNeNil _ rule3MatchRepNe
  apply replaceAllGoNeNil _ rule2MatchRepNe
  apply replaceAllGoNeNil _ rule1MatchRepNe
  exact h

theorem linkPassNeNil {s : List Char} (h : s ≠ []) : linkPass s ≠ [] :=
  inlineRulesNeNil h

/-! ### Pass 2 always produces `'\n'`-terminated output -/

theorem linePassLast {s : List Char} (h : s ≠ []) :
    linePass s ≠ [] ∧ (linePass s).getLast? = some '\n' := by
  unfold linePass
  apply flattenTerminatedLast
  · intro hemp
    rw [List.map_eq_nil_iff] at hemp
    exact rustLinesNeNil h hemp
  · intro c hc
    obtain ⟨line, hline, rfl⟩ := List.mem_map.mp hc
    exact classifyLineTerminated line

/-! ## The claims -/

/-- Claim C1: the transformation engine is total — for every input string,
`convert_markdown_to_neorg` returns some output string (`Except.ok`) and
never an error: the Rust function's only fallible steps are `Regex::new` on
constant valid patterns, and the transformation itself has no error path. -/
theorem c1_transform_total (content : List Char) :
    ∃ out, convert_markdown_to_neorg content = Except.ok out :=
  ⟨transform content, rfl⟩

/-- Claim C2, counterexample: the claim as stated quantifies over arbitrary
text `T`, but the inline-span pass runs before line classification, so a `T`
containing link syntax is rewritten first: on the heading line `# [a](b)` the
output text is `* \x7bb\x7d[a]` and not `* [a](b)`. -/
theorem c2_counterexample :
    transform ("# [a](b)".toList) ≠ "* [a](b)\n".toList ∧
      transform ("# [a](b)".toList) = "* \x7bb\x7d[a]\n".toList := by
  constructor
  · decide
  · decide

/-- Claim C2 (amended): for every input line of `n ≥ 1` leading `'#'`
followed by a nonempty whitespace run and text `T`, where `T` is a
single-line text that does not itself start with whitespace (the regex
`^(#+)\s+(.*)$` consumes whitespace greedily) and is inert under the
inline-span pass (it contains no `'['` and no `'<'`), `transform` emits a
line of exactly `n` `'*'`, one space, then `T`. -/
theorem c2_heading_amended (n : Nat) (ws T : List Char) (hn : 1 ≤ n)
    (hws : ws ≠ []) (hwsAll : ∀ c ∈ ws, rsWhitespace c = true)
    (hwsNl : '\n' ∉ ws) (hTNl : '\n' ∉ T) (hTBr : '[' ∉ T) (hTLt : '<' ∉ T)
    (hTHead : rsWhitespace (T.headD '.') = false) :
    transform (List.replicate n '#' ++ ws ++ T) =
      List.replicate n '*' ++ ' ' :: (T ++ ['\n']) := by
  obtain ⟨w0, ws', rfl⟩ : ∃ w0 ws', ws = w0 :: ws' := by
    cases ws with
    | nil => exact absurd rfl hws
    | cons a b => exact ⟨a, b, rfl⟩
  have hw0 : rsWhitespace w0 = true := hwsAll w0 (List.mem_cons_self _ _)
  have hwsAll' : ∀ c ∈ ws', rsWhitespace c = true := fun c hc =>
    hwsAll c (List.mem_cons_of_mem _ hc)
  rw [List.append_assoc, List.cons_append]
  have hsnobr : '[' ∉ List.replicate n '#' ++ (w0 :: (ws' ++ T)) := by
    intro hm
    rcases List.mem_append.mp hm with hm | hm
    · exact absurd (List.mem_replicate.mp hm).2 (by decide)
    · rcases List.mem_cons.mp hm with he | hm
      · exact absurd (hw0 ▸ congrArg rsWhitespace he.symm) (by decide)
      · rcases List.mem_append.mp hm with hm | hm
        · exact absurd (hwsAll' _ hm) (by decide)
        · exact hTBr hm
  have hsnolt : '<' ∉ List.replicate n '#' ++ (w0 :: (ws' ++ T)) := by
    intro hm
    rcases List.mem_append.mp hm with hm | hm
    · exact absurd (List.mem_replicate.mp hm).2 (by decide)
    · rcases List.mem_cons.mp hm with he | hm
      · exact absurd (hw0 ▸ congrArg rsWhitespace he.symm) (by decide)
      · rcases List.mem_append.mp hm with hm | hm
        · exact absurd (hwsAll' _ hm) (by decide)
        · exact hTLt hm
  have hsnonl : '\n' ∉ List.replicate n '#' ++ (w0 :: (ws' ++ T)) := by
    intro hm
    rcases List.mem_append.mp hm with hm | hm
    · exact absurd (List.mem_replicate.mp hm).2 (by decide)
    · rcases List.mem_cons.mp hm with he | hm
      · exact hwsNl (List.mem_cons.mpr (Or.inl he))
      · rcases List.mem_append.mp hm with hm | hm
        · exact hwsNl (List.mem_cons.mpr (Or.inr hm))
        · exact hTNl hm
  have hrepne : List.replicate n '#' ≠ [] := by
    intro he
    have := congrArg List.length he
    simp at this
    omega
  have hsne : List.replicate n '#' ++ (w0 :: (ws' ++ T)) ≠ [] := by
    simp
  have e1 : linkPass (List.replicate n '#' ++ (w0 :: (ws' ++ T))) =
      List.replicate n '#' ++ (w0 :: (ws' ++ T)) := linkPassId hsnobr hsnolt
  have e2 : rustLines (List.replicate n '#' ++ (w0 :: (ws' ++ T))) =
      [List.replicate n '#' ++ (w0 :: (ws' ++ T))] :=
    rustLinesSingle hsne hsnonl
  have hTtw : T.takeWhile rsWhitespace = [] := by
    cases T with
    | nil => rfl
    | cons c T' =>
      have hch : rsWhitespace c = false := hTHead
      exact List.takeWhile_cons_of_neg (by simp [hch])
  have hTdw : T.dropWhile rsWhitespace = T := by
    cases T with
    | nil => rfl
    | cons c T' =>
      have hch : rsWhitespace c = false := hTHead
      exact List.dropWhile_cons_of_neg (by simp [hch])
  have hw0hash : ¬ ((w0 == '#') = true) := by
    simp only [beq_iff_eq]
    exact rsWsNe hw0 (by decide)
  have hA1 : (List.replicate n '#' ++ (w0 :: (ws' ++ T))).takeWhile
      (fun c => c == '#') = List.replicate n '#' := by
    rw [List.takeWhile_append_of_pos
        (by intro a ha; simp [(List.mem_replicate.mp ha).2]),
      @List.takeWhile_cons_of_neg Char (fun c => c == '#') w0 (ws' ++ T)
        hw0hash, List.append_nil]
  have hA2 : (List.replicate n '#' ++ (w0 :: (ws' ++ T))).dropWhile
      (fun c => c == '#') = w0 :: (ws' ++ T) := by
    rw [List.dropWhile_append_of_pos
        (by intro a ha; simp [(List.mem_replicate.mp ha).2]),
      @List.dropWhile_cons_of_neg Char (fun c => c == '#') w0 (ws' ++ T)
        hw0hash]
  have hA3 : (w0 :: (ws' ++ T)).takeWhile rsWhitespace = w0 :: ws' := by
    rw [List.takeWhile_cons_of_pos hw0, List.takeWhile_append_of_pos hwsAll',
      hTtw, List.append_nil]
  have hA4 : (w0 :: (ws' ++ T)).dropWhile rsWhitespace = T := by
    rw [List.dropWhile_cons_of_pos hw0, List.dropWhile_append_of_pos hwsAll',
      hTdw]
  have hcont : T.contains '\n' = false := containsFalseOfNotMem hTNl
  have hhm : headingMatch (List.replicate n '#' ++ (w0 :: (ws' ++ T))) =
      some (n, T) := by
    simp only [headingMatch, hA1, hA2, hA3, hA4, hcont]
    simp [List.isEmpty_iff, hrepne]
    omega
  unfold transform
  rw [e1]
  unfold linePass
  rw [e2]
  simp only [List.map_cons, List.map_nil, List.flatten_cons, List.flatten_nil,
    List.append_nil]
  simp only [classifyLine, hhm]
  have hnl2 : '\n' ∉ List.replicate n '*' ++ ' ' :: T := by
    intro hm
    rcases List.mem_append.mp hm with hm | hm
    · exact absurd (List.mem_replicate.mp hm).2 (by decide)
    · rcases List.mem_cons.mp hm with he | hm
      · exact absurd he (by decide)
      · exact hTNl hm
  have hre : List.replicate n '*' ++ ' ' :: (T ++ ['\n']) =
      (List.replicate n '*' ++ ' ' :: T) ++ ['\n'] := by simp
  rw [hre, codeBlockPassIdSingleNl hnl2, ← hre]

/-- Claim C2 (amended), witness at `n = 1`, `ws = " "`, `T = "hi"`. -/
theorem c2_heading_amended_witness :
    transform (List.replicate 1 '#' ++ [' '] ++ ['h', 'i']) =
      List.replicate 1 '*' ++ ' ' :: (['h', 'i'] ++ ['\n']) :=
  c2_heading_amended 1 [' '] ['h', 'i'] (by decide) (by decide) (by decide)
    (by decide) (by decide) (by decide) (by decide) (by decide)

/-- Claim C3: the fenced-block round trip — `transform "```lang\nbody\n```"`
is `"@code lang\nbody\n@end\n"`; trailing whitespace including trailing blank
lines inside the fence is trimmed from the end of the payload; and with no
language tag the `@code` line carries a trailing space. -/
theorem c3_fenced_block :
    transform ("```lang\nbody\n```".toList) =
        "@code lang\nbody\n@end\n".toList ∧
      transform ("```lang\nbody  \n\n\n```".toList) =
        "@code lang\nbody\n@end\n".toList ∧
      transform ("```\nbody\n```".toList) = "@code \nbody\n@end\n".toList := by
  refine ⟨?_, ?_, ?_⟩
  · decide
  · decide
  · decide

/-- Claim C4: image rules run before plain-link rules —
`transform "![alt](img.png)"` yields the image form `\x7bimage:img.png\x7d[alt]`
and never the plain-link form `\x7bimg.png\x7d[alt]`. -/
theorem c4_image_precedence :
    transform ("![alt](img.png)".toList) = "\x7bimage:img.png\x7d[alt]\n".toList ∧
      transform ("![alt](img.png)".toList) ≠ "\x7bimg.png\x7d[alt]\n".toList := by
  constructor
  · decide
  · decide

/-- Claim C5: an uppercase `X` checkbox does not match the checked-task
pattern (lowercase `x` only) and falls through to the generic list rule:
`transform "- [X] X"` is `"-- [X] X\n"`. -/
theorem c5_uppercase_task :
    transform ("- [X] X".toList) = "-- [X] X\n".toList := by
  decide

/-- Claim C6, counterexample: for a reference definition without a title the
output is not `"@id destination"` — the template `@$1 $2 $3` substitutes the
empty string for the absent `$3`, leaving its preceding literal space, so a
trailing space remains. -/
theorem c6_counterexample :
    transform ("[id]: destination".toList) ≠ "@id destination\n".toList := by
  decide

/-- Claim C6 (amended): for a reference-definition line `[id]: destination`
with no quoted title, the title field is absent but the template's literal
space before it remains: the output is `"@id destination "` with exactly one
trailing space — exactly what the template `@$1 $2 $3` produces with `$3`
empty. -/
theorem c6_ref_def_amended :
    transform ("[id]: destination".toList) = "@id destination \n".toList := by
  decide

/-- Claim C7, counterexample: inline patterns can match across a line
boundary: the autolink rule's `[^>]+` accepts `'\n'`, so on
`"<https://a\nb>"` the whole-text pass rewrites across the embedded newline
while the line-by-line application leaves the text unchanged. -/
theorem c7_counterexample :
    linkPass ("<https://a\nb>".toList) ≠
      linkPassLineWise ("<https://a\nb>".toList) := by
  decide

/-- Claim C7 (amended): the inline pass is not line-local — negated character
classes (`[^>]`, `[^)]`, `[^\]]`) and whitespace quantifiers in the rules
accept `'\n'`, so a match can span an embedded newline and whole-text
application differs from line-by-line application: on `"<https://a\nb>"` the
whole-text pass produces `"\x7bhttps://a\nb\x7d[https://a\nb]"` (duplicating
the newline into the destination and display slots) while the line-by-line
pass leaves the input unchanged. -/
theorem c7_amended :
    linkPass ("<https://a\nb>".toList) =
        "\x7bhttps://a\nb\x7d[https://a\nb]".toList ∧
      linkPassLineWise ("<https://a\nb>".toList) = "<https://a\nb>".toList := by
  constructor
  · decide
  · decide

/-- Claim C8, counterexample: the line count is not preserved through pass 2
(the inline pass can split a line: `"<https://a\nb>"` has 2 lines but its
pass-2 output has 3), and pass 3 does not only remove lines (on
`"```x\nbody```"`, whose closing fence sits mid-line, pass 3 turns the
2-line pass-2 output into 3 lines). -/
theorem c8_counterexample :
    (rustLines ("<https://a\nb>".toList)).length = 2 ∧
      (rustLines (linePass (linkPass ("<https://a\nb>".toList)))).length = 3 ∧
      (rustLines (linePass (linkPass ("```x\nbody```".toList)))).length = 2 ∧
      (rustLines (codeBlockPass (linePass (linkPass
        ("```x\nbody```".toList))))).length = 3 := by
  refine ⟨?_, ?_, ?_, ?_⟩
  · decide
  · decide
  · decide
  · decide

/-- Claim C8 (amended): the line-classification pass alone preserves the line
count — for every text, pass 2's output has exactly as many lines as its
input; pass 1 may merge or split lines when an inline match spans `'\n'`, and
pass 3 may remove lines (trailing blank lines trimmed from a fenced payload)
or add one (a closing fence that sits mid-line). -/
theorem c8_amended (s : List Char) :
    (rustLines (linePass s)).length = (rustLines s).length := by
  unfold linePass
  rw [rustLinesFlattenLength]
  · rw [List.length_map]
  · intro c hc
    obtain ⟨line, hline, rfl⟩ := List.mem_map.mp hc
    exact classifyLineChunk line (rustLinesNoNl hline)

/-- Claim C9: for every nonempty input the output is nonempty and ends with
exactly one final line terminator — every logical line of the output ends
with a `'\n'`, and a missing final terminator on the source's last line is
synthesized (pass 2 appends `'\n'` to every line, and pass 3 preserves the
final `'\n'` since any fence match ends in a backtick before it). -/
theorem c9_trailing_newline (s : List Char) (h : s ≠ []) :
    transform s ≠ [] ∧ (transform s).getLast? = some '\n' := by
  have h1 : linkPass s ≠ [] := linkPassNeNil h
  obtain ⟨h2, h3⟩ := linePassLast h1
  have h4 := codeBlockPassLast h3
  unfold transform
  refine ⟨?_, h4⟩
  intro hemp
  rw [hemp] at h4
  simp at h4

/-- Claim C9, witness at the one-character input `"x"` (which lacks a final
terminator; the output is `"x\n"`). -/
theorem c9_trailing_newline_witness :
    transform ['x'] ≠ [] ∧ (transform ['x']).getLast? = some '\n' :=
  c9_trailing_newline ['x'] (by decide)

/-- Claim C10: the transform of the empty string is the empty string — with
no lines at all, no trailing line break is synthesized. -/
theorem c10_empty : transform ([] : List Char) = [] := rfl

end Md2Norg
